import Mathlib

/-!
Verification of the `can_decode` CAN-frame decoding engine (`src/lib.rs`).

The Rust code is shallowly embedded: `u8` buffer bytes and `u64` machine
integers become `Nat` with explicit `% 2 ^ 64` truncation where the machine
width matters, `f64` signal arithmetic is modelled by exact rationals `ℚ`
(every concrete constant appearing in the specification's vectors is a
dyadic rational at which IEEE-754 double arithmetic is exact), `Option`
models Rust's `Option`, and the `HashMap`s are modelled as association
lists with the same lookup/insert semantics.
-/

namespace CanDecode

/-- Byte order of a signal, mirroring `can_dbc::ByteOrder`. -/
inductive ByteOrder where
  | LittleEndian : ByteOrder
  | BigEndian : ByteOrder
deriving DecidableEq

/-- Signedness of a signal, mirroring `can_dbc::ValueType`. -/
inductive ValueType where
  | Signed : ValueType
  | Unsigned : ValueType
deriving DecidableEq

/-- Message identifier, mirroring `can_dbc::MessageId`. -/
inductive MessageId where
  | Standard : Nat → MessageId
  | Extended : Nat → MessageId
deriving DecidableEq

/-- Rust `u64` left shift as it behaves in release builds: the shift amount
is taken mod 64 and the result is truncated to 64 bits.  In debug builds a
shift amount of 64 or more panics instead; every reachable shift in the
decoder has amount below 64 except the `1u64 << signal_def.size` mask
computation at `size == 64`, which is exactly the defect analysed below. -/
def shl64 (x s : Nat) : Nat := (x <<< (s % 64)) % 2 ^ 64

/-- Rust `u64` bitwise complement `!x`. -/
def unot64 (x : Nat) : Nat := x ^^^ (2 ^ 64 - 1)

/-- Reinterpretation of a `u64` bit pattern as an `i64` (Rust `as i64`). -/
def toI64 (x : Nat) : Int := if x < 2 ^ 63 then (x : Int) else (x : Int) - 2 ^ 64

/-- The fields of `can_dbc::Signal` that the decoder reads.  `factor` and
`offset` are the `f64` scale and offset, modelled as rationals. -/
structure Signal where
  name : String
  start_bit : Nat
  size : Nat
  byte_order : ByteOrder
  value_type : ValueType
  factor : Rat
  offset : Rat
  unit : String
deriving DecidableEq

/-- The fields of `can_dbc::Message` that the decoder reads. -/
structure Message where
  id : MessageId
  name : String
  signals : List Signal

/-- Output record `DecodedSignal` from `src/lib.rs`. -/
structure DecodedSignal where
  name : String
  value : Rat
  unit : String
deriving DecidableEq

/-- Output record `DecodedMessage` from `src/lib.rs`; the signal `HashMap`
is modelled as an association list with unique keys. -/
structure DecodedMessage where
  name : String
  msg_id : Nat
  is_extended : Bool
  signals : List (String × DecodedSignal)

/-- The `Parser` state: its `msg_defs : HashMap<u32, Message>` modelled as an
association list keyed by the numeric message id. -/
structure Parser where
  msg_defs : List (Nat × Message)

/-- Lookup in the modelled `HashMap` (`self.msg_defs.get(&msg_id)`). -/
def lookupDef (defs : List (Nat × Message)) (msg_id : Nat) : Option Message :=
  match defs with
  | [] => none
  | (k, m) :: rest => if k = msg_id then some m else lookupDef rest msg_id

/-- Insert into the modelled signal `HashMap`: an existing binding for the
key is replaced (kept key-unique by erasing the old binding). -/
def insertSig (m : List (String × DecodedSignal)) (k : String) (v : DecodedSignal) :
    List (String × DecodedSignal) :=
  (k, v) :: m.filter (fun p => !(p.1 = k : Bool))

/-- Lookup in the modelled signal `HashMap`. -/
def sigLookup (m : List (String × DecodedSignal)) (k : String) : Option DecodedSignal :=
  match m with
  | [] => none
  | (k', v) :: rest => if k' = k then some v else sigLookup rest k

/-- The little-endian `while` loop of `Parser::extract_signal_value`
(`src/lib.rs` lines 360-378), with the loop state as arguments.  Each pass
consumes `min(remaining_bits, 8 - bit_offset)` bits of the current byte and
ORs them into the accumulator at position `size - remaining_bits`. -/
def leLoop (data : List Nat) (size remaining currentByte bitOffset result : Nat) : Nat :=
  if h : 0 < remaining ∧ currentByte < data.length then
    let bits_in_this_byte := min remaining (8 - bitOffset)
    let mask := shl64 (shl64 1 bits_in_this_byte - 1) bitOffset
    let byte_value := ((data.get ⟨currentByte, h.2⟩) &&& mask) >>> bitOffset
    leLoop data size (remaining - bits_in_this_byte) (currentByte + 1) 0
      (result ||| shl64 byte_value (size - remaining))
  else result
termination_by data.length - currentByte
decreasing_by omega

/-- The big-endian `for` loop of `Parser::extract_signal_value`
(`src/lib.rs` lines 380-397): one bit per pass, MSB-first within each byte,
shifted into the accumulator from the low end; breaks out when the byte
index runs past the buffer. -/
def beLoop (data : List Nat) : Nat → Nat → Nat → Nat
  | _, 0, result => result
  | bitPos, n + 1, result =>
    if h : bitPos / 8 < data.length then
      beLoop data (bitPos + 1) n
        (shl64 result 1 ||| ((data.get ⟨bitPos / 8, h⟩ >>> (7 - bitPos % 8)) &&& 1))
    else result

/-- Embedding of `Parser::extract_signal_value` (`src/lib.rs` 341-401). -/
def extract_signal_value (data : List Nat) (start_bit size : Nat)
    (byte_order : ByteOrder) : Option Nat :=
  if data.length = 0 ∨ size = 0 then none
  else if start_bit + size > data.length * 8 then none
  else
    match byte_order with
    | ByteOrder.LittleEndian =>
        some (leLoop data size size (start_bit / 8) (start_bit % 8) 0)
    | ByteOrder.BigEndian => some (beLoop data start_bit size 0)

/-- Embedding of `Parser::decode_signal` (`src/lib.rs` 302-335): extract the
raw bits, sign-extend when the signal is signed (via the `u64` mask
`!((1u64 << size) - 1)`), then apply `raw * factor + offset`. -/
def decode_signal (signal_def : Signal) (data : List Nat) : Option DecodedSignal :=
  match extract_signal_value data signal_def.start_bit signal_def.size
      signal_def.byte_order with
  | none => none
  | some raw_value =>
    let raw : Rat :=
      if signal_def.value_type = ValueType.Signed then
        let max_unsigned := shl64 1 signal_def.size - 1
        let sign_bit := shl64 1 (signal_def.size - 1)
        if raw_value &&& sign_bit ≠ 0 then
          ((toI64 (raw_value ||| unot64 max_unsigned) : Int) : Rat)
        else (raw_value : Rat)
      else (raw_value : Rat)
    some { name := signal_def.name
           value := raw * signal_def.factor + signal_def.offset
           unit := signal_def.unit }

/-- One pass of the `for signal_def in &msg_def.signals` loop of
`Parser::decode_msg`: a successful decode is inserted under the decoded
signal's name, a failed one only logs a warning and leaves the map alone. -/
def decodeStep (data : List Nat) (acc : List (String × DecodedSignal))
    (signal_def : Signal) : List (String × DecodedSignal) :=
  match decode_signal signal_def data with
  | some decoded_signal => insertSig acc decoded_signal.name decoded_signal
  | none => acc

/-- Embedding of `Parser::decode_msg` (`src/lib.rs` 268-296): `None` exactly
when the id is absent from `msg_defs`; otherwise every signal is decoded
independently and the successes are collected into the map. -/
def decode_msg (p : Parser) (msg_id : Nat) (data : List Nat) : Option DecodedMessage :=
  match lookupDef p.msg_defs msg_id with
  | none => none
  | some msg_def =>
    let is_extended := match msg_def.id with
      | MessageId.Extended _ => true
      | MessageId.Standard _ => false
    let decoded_signals := msg_def.signals.foldl (decodeStep data) []
    some { name := msg_def.name
           msg_id := msg_id
           is_extended := is_extended
           signals := decoded_signals }

/-- Embedding of `Parser::signal_defs_for_msg` (`src/lib.rs` 430-433). -/
def signal_defs_for_msg (p : Parser) (msg_id : Nat) : Option (List Signal) :=
  match lookupDef p.msg_defs msg_id with
  | none => none
  | some msg_def => some msg_def.signals

/-- Embedding of `Parser::clear` (`src/lib.rs` 478-480): the definition map
becomes empty. -/
def Parser.clear (_ : Parser) : Parser := { msg_defs := [] }

/-! Specification-side descriptions of the two bit-addressing conventions
(spec §4.1 and §8), used to state the refinement and round-trip claims.
These are written from the specification's words, to be compared against
the embedded code above. -/

/-- Bit position inside a byte for absolute bit position `p`: little-endian
counts from the least significant bit (`p % 8`), big-endian from the most
significant (`7 - p % 8`). -/
def bitIdx : ByteOrder → Nat → Nat
  | ByteOrder.LittleEndian, p => p % 8
  | ByteOrder.BigEndian, p => 7 - p % 8

/-- Specification-side reading of the single bit at absolute position `p`. -/
def getBitO (o : ByteOrder) (data : List Nat) (p : Nat) : Nat :=
  ((data.getD (p / 8) 0) >>> bitIdx o p) &&& 1

/-- Specification-side writing of bit `b` at absolute position `p`; an
out-of-range position leaves the buffer unchanged, like `List.set`. -/
def setBitO (o : ByteOrder) (data : List Nat) (p b : Nat) : List Nat :=
  data.set (p / 8)
    (((data.getD (p / 8) 0) &&& (255 ^^^ (1 <<< bitIdx o p))) ||| (b <<< bitIdx o p))

/-- Value described by spec §4.1 for LittleEndian: `w` bits starting at
absolute position `pos`, least-significant first. -/
def leSpec (data : List Nat) (pos : Nat) : Nat → Nat
  | 0 => 0
  | w + 1 => getBitO ByteOrder.LittleEndian data pos + 2 * leSpec data (pos + 1) w

/-- Value described by spec §4.1 for BigEndian: `w` bits starting at
absolute position `pos`, most-significant first. -/
def beSpec (data : List Nat) (pos : Nat) : Nat → Nat
  | 0 => 0
  | w + 1 => getBitO ByteOrder.BigEndian data pos * 2 ^ w + beSpec data (pos + 1) w

/-- Inverse of the little-endian packing rule (spec §8): bit `j` of `v` is
written at absolute position `start + j`. -/
def packLE (data : List Nat) (start : Nat) : Nat → Nat → List Nat
  | 0, _ => data
  | w + 1, v =>
      packLE (setBitO ByteOrder.LittleEndian data start (v &&& 1)) (start + 1) w (v >>> 1)

/-- MSB-first packing rule (spec §8, big-endian round trip): bit
`w - 1 - i` of `v` is written at absolute position `start + i`. -/
def packBE (data : List Nat) (start : Nat) : Nat → Nat → List Nat
  | 0, _ => data
  | w + 1, v =>
      packBE (setBitO ByteOrder.BigEndian data start ((v >>> w) &&& 1)) (start + 1) w v

/-! Concrete example layouts and catalogs used to instantiate the general
theorems on the specification's test vectors (§8). -/

/-- Signed 8-bit big-endian signal with unit scale and zero offset. -/
def sC5a : Signal :=
  Signal.mk "s" 0 8 ByteOrder.BigEndian ValueType.Signed 1 0 "u"

/-- Signed 1-bit big-endian signal with unit scale and zero offset. -/
def sC5b : Signal :=
  Signal.mk "s" 0 1 ByteOrder.BigEndian ValueType.Signed 1 0 "u"

/-- Unsigned 8-bit signal with scale 0.5 and offset 10. -/
def sC8 : Signal :=
  Signal.mk "s" 0 8 ByteOrder.BigEndian ValueType.Unsigned (1 / 2) 10 "u"

/-- Decoded record expected for `sC8` on raw value 16. -/
def dC8 : DecodedSignal := DecodedSignal.mk "s" 18 "u"

/-- Signed 64-bit big-endian signal with unit scale and zero offset (the
`bit_width == 64` edge case of spec §4.2). -/
def sC1 : Signal :=
  Signal.mk "s" 0 64 ByteOrder.BigEndian ValueType.Signed 1 0 "u"

/-- In-range 8-bit signal named "A". -/
def sigA : Signal :=
  Signal.mk "A" 0 8 ByteOrder.BigEndian ValueType.Unsigned 1 0 ""

/-- In-range 8-bit signal named "B". -/
def sigB : Signal :=
  Signal.mk "B" 8 8 ByteOrder.BigEndian ValueType.Unsigned 1 0 ""

/-- Signal named "C" whose bit span 60..68 exceeds an 8-byte buffer. -/
def sigC : Signal :=
  Signal.mk "C" 60 8 ByteOrder.BigEndian ValueType.Unsigned 1 0 ""

/-- A message with three signal layouts of which one is out of range. -/
def msgX : Message := Message.mk (MessageId.Standard 0x10) "X" [sigA, sigB, sigC]

/-- A catalog holding only `msgX` under id `0x10`. -/
def parserX : Parser := Parser.mk [(0x10, msgX)]

/-- An 8-byte (64-bit) frame buffer. -/
def dataX : List Nat := [1, 2, 3, 4, 5, 6, 7, 8]

/-- The decoded message `decode_msg` produces for `parserX` on `dataX`. -/
def dmX : DecodedMessage :=
  DecodedMessage.mk "X" 0x10 false (msgX.signals.foldl (decodeStep dataX) [])

/-! Arithmetic helpers about `Nat` viewed as a 64-bit machine word. -/

/-- ORing a value below `2 ^ n` with a value shifted up by `n` is addition. -/
theorem lor_shiftLeft_eq_add {a b n : Nat} (h : a < 2 ^ n) :
    a ||| b <<< n = a + b * 2 ^ n := by
  apply Nat.eq_of_testBit_eq
  intro j
  rw [Nat.testBit_lor, Nat.testBit_shiftLeft]
  rcases Nat.lt_or_ge j n with hj | hj
  · have hd : decide (j ≥ n) = false := by simp; omega
    have h1 := Nat.testBit_mod_two_pow (a + b * 2 ^ n) n j
    have h2 : (a + b * 2 ^ n) % 2 ^ n = a % 2 ^ n := Nat.add_mul_mod_self_right ..
    rw [h2] at h1
    have h3 := Nat.testBit_mod_two_pow a n j
    rw [hd, Bool.false_and, Bool.or_false]
    have hdj : decide (j < n) = true := by simp [hj]
    rw [hdj, Bool.true_and] at h1 h3
    rw [← h3, h1]
  · have hd : decide (j ≥ n) = true := by simp [hj]
    have ha : a.testBit j = false :=
      Nat.testBit_lt_two_pow (lt_of_lt_of_le h (Nat.pow_le_pow_right (by omega) hj))
    have hq : (a + b * 2 ^ n) >>> n = b := by
      rw [Nat.shiftRight_eq_div_pow, Nat.add_mul_div_right _ _ (Nat.pos_pow_of_pos n (by omega)),
        Nat.div_eq_of_lt h]
      omega
    have h5 : (a + b * 2 ^ n).testBit j = b.testBit (j - n) := by
      have h6 : j = n + (j - n) := by omega
      rw [h6, ← Nat.testBit_shiftRight, hq]
      congr 1
      omega
    rw [ha, hd, Bool.false_or, Bool.true_and, h5]

/-- Shifting the accumulator left one bit and ORing in a single bit is
`2 * r + b`. -/
theorem shiftLeft_one_lor_bit {r b : Nat} (hb : b < 2) :
    r <<< 1 ||| b = 2 * r + b := by
  rw [Nat.lor_comm, lor_shiftLeft_eq_add hb]
  ring

/-- A single extracted bit is at most 1. -/
theorem getBitO_le_one (o : ByteOrder) (data : List Nat) (p : Nat) :
    getBitO o data p ≤ 1 := by
  have := Nat.and_le_right (n := (data.getD (p / 8) 0) >>> bitIdx o p) (m := 1)
  simpa [getBitO] using this

/-- The big-endian specification value fits in `w` bits. -/
theorem beSpec_lt (data : List Nat) (pos w : Nat) : beSpec data pos w < 2 ^ w := by
  induction w generalizing pos with
  | zero => simp [beSpec]
  | succ w ih =>
    have h1 := getBitO_le_one ByteOrder.BigEndian data pos
    have h2 := ih (pos + 1)
    have : getBitO ByteOrder.BigEndian data pos * 2 ^ w ≤ 2 ^ w :=
      Nat.mul_le_of_le_div _ _ _ (by simpa using h1)
    simp only [beSpec]
    calc getBitO ByteOrder.BigEndian data pos * 2 ^ w + beSpec data (pos + 1) w
        < 2 ^ w + 2 ^ w := by omega
      _ = 2 ^ (w + 1) := by ring

/-- The little-endian specification value fits in `w` bits. -/
theorem leSpec_lt (data : List Nat) (pos w : Nat) : leSpec data pos w < 2 ^ w := by
  induction w generalizing pos with
  | zero => simp [leSpec]
  | succ w ih =>
    have h1 := getBitO_le_one ByteOrder.LittleEndian data pos
    have h2 := ih (pos + 1)
    simp only [leSpec]
    calc getBitO ByteOrder.LittleEndian data pos + 2 * leSpec data (pos + 1) w
        < 2 + 2 * leSpec data (pos + 1) w := by omega
      _ ≤ 2 + 2 * (2 ^ w - 1) := by omega
      _ ≤ 2 ^ (w + 1) := by
          have : 1 ≤ 2 ^ w := Nat.one_le_two_pow
          rw [pow_succ]
          omega

/-- Splitting a little-endian bit run into two consecutive runs. -/
theorem leSpec_add (data : List Nat) (pos a b : Nat) :
    leSpec data pos (a + b) = leSpec data pos a + 2 ^ a * leSpec data (pos + a) b := by
  induction a generalizing pos with
  | zero => simp [leSpec]
  | succ a ih =>
    have : a + 1 + b = (a + b) + 1 := by omega
    rw [this]
    simp only [leSpec]
    rw [ih (pos + 1)]
    have : pos + 1 + a = pos + (a + 1) := by omega
    rw [this, pow_succ]
    ring

/-- Reading a list element with an in-bounds proof agrees with `getD`. -/
theorem get_eq_getD {data : List Nat} {i : Nat} (h : i < data.length) :
    data.get ⟨i, h⟩ = data.getD i 0 := by
  simp [List.getD_eq_getElem?_getD, List.getElem?_eq_getElem h, List.get_eq_getElem]

/-- Invariant of the big-endian loop: while the addressed bits stay inside
the buffer and at most 64 bits are pending, each pass shifts the
accumulator up and the loop adds the MSB-first value of the `n` bits. -/
theorem beLoop_eq (data : List Nat) (n : Nat) :
    ∀ bitPos r, bitPos + n ≤ data.length * 8 → n ≤ 64 → r < 2 ^ (64 - n) →
    beLoop data bitPos n r = r * 2 ^ n + beSpec data bitPos n := by
  induction n with
  | zero => intro bitPos r _ _ _; simp [beLoop, beSpec]
  | succ n ih =>
    intro bitPos r hrange hn hr
    have hbyte : bitPos / 8 < data.length := by omega
    rw [beLoop, dif_pos hbyte]
    have hbit : (data.get ⟨bitPos / 8, hbyte⟩ >>> (7 - bitPos % 8)) &&& 1
        = getBitO ByteOrder.BigEndian data bitPos := by
      rw [get_eq_getD hbyte]
      rfl
    have hshl : shl64 r 1 = r <<< 1 := by
      have h1 : r <<< 1 = r * 2 := by rw [Nat.shiftLeft_eq]
      have h2 : r * 2 < 2 ^ 64 := by
        have : 2 ^ (64 - (n + 1)) * 2 ≤ 2 ^ 64 := by
          rw [← pow_succ]
          exact Nat.pow_le_pow_right (by omega) (by omega)
        omega
      unfold shl64
      have h3 : (1 : Nat) % 64 = 1 := by norm_num
      rw [h3, h1, Nat.mod_eq_of_lt h2]
    have hbitle : getBitO ByteOrder.BigEndian data bitPos < 2 :=
      Nat.lt_succ_of_le (getBitO_le_one _ _ _)
    rw [hbit, hshl, shiftLeft_one_lor_bit hbitle]
    have hrec := ih (bitPos + 1) (2 * r + getBitO ByteOrder.BigEndian data bitPos)
      (by omega) (by omega)
      (by
        have h3 : 2 ^ (64 - (n + 1)) * 2 = 2 ^ (64 - n) := by
          rw [← pow_succ]
          congr 1
          omega
        omega)
    rw [hrec]
    simp only [beSpec]
    ring

/-- In-range big-endian extraction computes exactly the MSB-first bit value
described by spec §4.1. -/
theorem extract_be (data : List Nat) (start w : Nat) (hw : 1 ≤ w) (h64 : w ≤ 64)
    (hr : start + w ≤ data.length * 8) :
    extract_signal_value data start w ByteOrder.BigEndian = some (beSpec data start w) := by
  have hlen : data.length ≠ 0 := by
    intro h
    rw [h] at hr
    omega
  unfold extract_signal_value
  rw [if_neg (by omega), if_neg (by omega)]
  have := beLoop_eq data w start 0 (by omega) h64 (Nat.pos_pow_of_pos _ (by omega))
  rw [this]
  simp

/-- Masking with a field mask shifted up by `k` and then shifting down by
`k` is the same as shifting down first and masking. -/
theorem and_shiftLeft_shiftRight (x m k : Nat) :
    (x &&& m <<< k) >>> k = x >>> k &&& m := by
  apply Nat.eq_of_testBit_eq
  intro j
  have hkj : k + j - k = j := by omega
  simp [Nat.testBit_shiftRight, Nat.testBit_and, Nat.testBit_shiftLeft, hkj, Nat.le_add_right]

/-- Unfolding of `bitIdx` for the little-endian convention. -/
theorem bitIdx_le (p : Nat) : bitIdx ByteOrder.LittleEndian p = p % 8 := rfl

/-- Unfolding of `bitIdx` for the big-endian convention. -/
theorem bitIdx_be (p : Nat) : bitIdx ByteOrder.BigEndian p = 7 - p % 8 := rfl

/-- A run of bits that stays inside one byte has the value of that byte,
shifted down to the run's offset and truncated to the run's width. -/
theorem leSpec_byte (data : List Nat) (cb : Nat) (bits : Nat) :
    ∀ off, off + bits ≤ 8 →
    leSpec data (8 * cb + off) bits = (data.getD cb 0 >>> off) % 2 ^ bits := by
  induction bits with
  | zero => intro off _; simp [leSpec, Nat.mod_one]
  | succ b ih =>
    intro off hoff
    have hp8 : (8 * cb + off) / 8 = cb := by omega
    have hpm : (8 * cb + off) % 8 = off := by omega
    have hbit : getBitO ByteOrder.LittleEndian data (8 * cb + off)
        = (data.getD cb 0 >>> off) % 2 := by
      unfold getBitO
      rw [bitIdx_le, hp8, hpm, Nat.and_one_is_mod]
    have hrec : leSpec data (8 * cb + off + 1) b
        = ((data.getD cb 0 >>> off) / 2) % 2 ^ b := by
      have h1 : 8 * cb + off + 1 = 8 * cb + (off + 1) := by omega
      rw [h1, ih (off + 1) (by omega)]
      have h2 : data.getD cb 0 >>> (off + 1) = (data.getD cb 0 >>> off) >>> 1 := by
        rw [Nat.shiftRight_add]
      rw [h2, Nat.shiftRight_eq_div_pow]
    have hsplit : (data.getD cb 0 >>> off) % 2 ^ (b + 1)
        = (data.getD cb 0 >>> off) % 2 + 2 * ((data.getD cb 0 >>> off) / 2 % 2 ^ b) := by
      rw [pow_succ, mul_comm (2 ^ b) 2, Nat.mod_mul]
    simp only [leSpec]
    rw [hbit, hrec, hsplit]

/-- Invariant of the little-endian loop, for a signal of at most 64 bits:
each pass deposits one byte's worth of bits at the next free position of
the accumulator, so the loop adds the LSB-first value of the pending bits
shifted to position `size - remaining`. -/
theorem leLoop_step (data : List Nat) (size remaining cb off r : Nat)
    (hpos : 0 < remaining) (hcb : cb < data.length) :
    leLoop data size remaining cb off r
      = leLoop data size (remaining - min remaining (8 - off)) (cb + 1) 0
          (r ||| shl64
            ((data.getD cb 0 &&& shl64 (shl64 1 (min remaining (8 - off)) - 1) off) >>> off)
            (size - remaining)) := by
  rw [leLoop, dif_pos ⟨hpos, hcb⟩]
  simp only [get_eq_getD hcb]

theorem leLoop_eq (data : List Nat) (size : Nat) (hsize : size ≤ 64) :
    ∀ remaining, 0 < remaining → ∀ cb off r, off < 8 → remaining ≤ size →
      8 * cb + off + remaining ≤ data.length * 8 →
      r < 2 ^ (size - remaining) →
      leLoop data size remaining cb off r
        = r + leSpec data (8 * cb + off) remaining * 2 ^ (size - remaining) := by
  intro remaining
  induction remaining using Nat.strong_induction_on with
  | _ remaining ih =>
    intro hpos cb off r hoff hrs hrange hr
    have hcb : cb < data.length := by omega
    rw [leLoop_step data size remaining cb off r hpos hcb]
    set bits := min remaining (8 - off) with hbitsdef
    have hbitspos : 0 < bits := by omega
    have hbits8 : off + bits ≤ 8 := by omega
    have hbitsrem : bits ≤ remaining := by omega
    -- the mask is a `bits`-wide field mask shifted to the offset
    have hmask : shl64 (shl64 1 bits - 1) off = (2 ^ bits - 1) <<< off := by
      have h1 : shl64 1 bits = 2 ^ bits := by
        unfold shl64
        rw [Nat.mod_eq_of_lt (show bits < 64 by omega), Nat.shiftLeft_eq, one_mul,
          Nat.mod_eq_of_lt (Nat.pow_lt_pow_right (by omega) (by omega))]
      have hlt : (2 ^ bits - 1) * 2 ^ off < 2 ^ 64 := by
        calc (2 ^ bits - 1) * 2 ^ off < 2 ^ bits * 2 ^ off := by
              have hp1 := Nat.pos_pow_of_pos off (show 0 < 2 by omega)
              have hp2 := Nat.pos_pow_of_pos bits (show 0 < 2 by omega)
              exact Nat.mul_lt_mul_of_lt_of_le (by omega) (le_refl _) (by omega)
          _ = 2 ^ (bits + off) := by rw [pow_add]
          _ ≤ 2 ^ 64 := Nat.pow_le_pow_right (by omega) (by omega)
      rw [h1]
      unfold shl64
      rw [Nat.mod_eq_of_lt (show off < 64 by omega), Nat.shiftLeft_eq]
      exact Nat.mod_eq_of_lt hlt
    -- the extracted chunk equals the byte shifted down, truncated to `bits`
    have hchunk : (data.getD cb 0 &&& shl64 (shl64 1 bits - 1) off) >>> off
        = (data.getD cb 0 >>> off) % 2 ^ bits := by
      rw [hmask]
      have h2 : (2 ^ bits - 1) * 2 ^ off = (2 ^ bits - 1) <<< off := by
        rw [Nat.shiftLeft_eq]
      rw [← h2, h2, and_shiftLeft_shiftRight, Nat.and_pow_two_sub_one_eq_mod]
    have hchunklt : (data.getD cb 0 >>> off) % 2 ^ bits < 2 ^ bits :=
      Nat.mod_lt _ (Nat.pos_pow_of_pos _ (by omega))
    -- depositing the chunk is addition at position `size - remaining`
    have hdep : r ||| shl64 ((data.getD cb 0 >>> off) % 2 ^ bits) (size - remaining)
        = r + (data.getD cb 0 >>> off) % 2 ^ bits * 2 ^ (size - remaining) := by
      have hs : shl64 ((data.getD cb 0 >>> off) % 2 ^ bits) (size - remaining)
          = ((data.getD cb 0 >>> off) % 2 ^ bits) <<< (size - remaining) := by
        unfold shl64
        rw [Nat.mod_eq_of_lt (show size - remaining < 64 by omega)]
        have hlt2 : (data.getD cb 0 >>> off) % 2 ^ bits * 2 ^ (size - remaining) < 2 ^ 64 := by
          calc (data.getD cb 0 >>> off) % 2 ^ bits * 2 ^ (size - remaining)
              < 2 ^ bits * 2 ^ (size - remaining) :=
                Nat.mul_lt_mul_of_lt_of_le hchunklt (le_refl _)
                  (Nat.pos_pow_of_pos _ (by omega))
            _ = 2 ^ (bits + (size - remaining)) := by rw [pow_add]
            _ ≤ 2 ^ 64 := Nat.pow_le_pow_right (by omega) (by omega)
        rw [Nat.shiftLeft_eq, Nat.mod_eq_of_lt hlt2, ← Nat.shiftLeft_eq]
      rw [hs, lor_shiftLeft_eq_add hr]
    rw [hchunk, hdep]
    rcases Nat.eq_zero_or_pos (remaining - bits) with hz | hposrest
    · -- the run ends with this byte: `bits = remaining`, loop exits next pass
      have hbr : bits = remaining := by omega
      rw [hz, leLoop, dif_neg (by omega)]
      have hlast : leSpec data (8 * cb + off) remaining
          = (data.getD cb 0 >>> off) % 2 ^ remaining := by
        rw [← hbr]
        exact leSpec_byte data cb bits off hbits8
      rw [hlast, hbr]
    · -- the byte is exhausted first: `bits = 8 - off`, recurse at offset 0
      have hbr : bits = 8 - off := by omega
      have hrest : remaining - bits < remaining := by omega
      have hexp : 2 ^ (size - (remaining - bits))
          = 2 ^ (size - remaining) * 2 ^ bits := by
        rw [← pow_add]
        congr 1
        omega
      have hrec := ih (remaining - bits) hrest hposrest (cb + 1) 0
        (r + (data.getD cb 0 >>> off) % 2 ^ bits * 2 ^ (size - remaining))
        (by omega) (by omega) (by omega)
        (by
          have h3 := Nat.pos_pow_of_pos (size - remaining) (show 0 < 2 by omega)
          have heq : 2 ^ (size - remaining) + (2 ^ bits - 1) * 2 ^ (size - remaining)
              = 2 ^ (size - (remaining - bits)) := by
            obtain ⟨k, hk⟩ := Nat.exists_eq_add_of_le (Nat.one_le_two_pow :
              1 ≤ 2 ^ bits)
            rw [hexp, hk]
            have hk1 : 1 + k - 1 = k := by omega
            rw [hk1]
            ring
          have h1 : (data.getD cb 0 >>> off) % 2 ^ bits * 2 ^ (size - remaining)
              ≤ (2 ^ bits - 1) * 2 ^ (size - remaining) :=
            Nat.mul_le_mul_right _ (by omega)
          omega)
      rw [hrec]
      have hsplitle : leSpec data (8 * cb + off) remaining
          = leSpec data (8 * cb + off) bits
            + 2 ^ bits * leSpec data (8 * cb + off + bits) (remaining - bits) := by
        have h5 : remaining = bits + (remaining - bits) := by omega
        calc leSpec data (8 * cb + off) remaining
            = leSpec data (8 * cb + off) (bits + (remaining - bits)) := by rw [← h5]
          _ = _ := leSpec_add data (8 * cb + off) bits (remaining - bits)
      have hfirst : leSpec data (8 * cb + off) bits
          = (data.getD cb 0 >>> off) % 2 ^ bits := leSpec_byte data cb bits off hbits8
      have hposeq : 8 * (cb + 1) + 0 = 8 * cb + off + bits := by omega
      rw [hposeq, hsplitle, hfirst, hexp]
      ring

/-- In-range little-endian extraction computes exactly the LSB-first bit
value described by spec §4.1. -/
theorem extract_le (data : List Nat) (start w : Nat) (hw : 1 ≤ w) (h64 : w ≤ 64)
    (hr : start + w ≤ data.length * 8) :
    extract_signal_value data start w ByteOrder.LittleEndian = some (leSpec data start w) := by
  have hlen : data.length ≠ 0 := by
    intro h
    rw [h] at hr
    omega
  unfold extract_signal_value
  rw [if_neg (by omega), if_neg (by omega)]
  have hstart : 8 * (start / 8) + start % 8 = start := by omega
  have := leLoop_eq data w h64 w (by omega) (start / 8) (start % 8) 0 (by omega)
    (le_refl _) (by omega) (Nat.pos_pow_of_pos _ (by omega))
  rw [hstart] at this
  rw [this]
  norm_num

/-! Lemmas about single-bit reads and writes, leading to the §8 round-trip
properties. -/

/-- The in-byte bit index is always below 8. -/
theorem bitIdx_lt (o : ByteOrder) (p : Nat) : bitIdx o p < 8 := by
  cases o <;> simp [bitIdx] <;> omega

/-- Same byte but different absolute position means different in-byte
index, for either convention. -/
theorem bitIdx_inj (o : ByteOrder) {p q : Nat} (hbyte : p / 8 = q / 8) (hne : p ≠ q) :
    bitIdx o p ≠ bitIdx o q := by
  have hm : p % 8 ≠ q % 8 := by omega
  cases o <;> simp [bitIdx] <;> omega

/-- Shifting down and truncating to one bit reads `testBit`. -/
theorem shiftRight_and_one (x i : Nat) : x >>> i &&& 1 = (x.testBit i).toNat := by
  rw [Nat.and_one_is_mod, Nat.testBit_to_div_mod, Nat.shiftRight_eq_div_pow]
  rcases Nat.mod_two_eq_zero_or_one (x / 2 ^ i) with h | h <;> simp [h]

/-- Bit `j` of a byte after overwriting bit `i` with `b`. -/
theorem testBit_setByte (x b i j : Nat) (hi : i < 8) (hj : j < 8) (hb : b < 2) :
    ((x &&& (255 ^^^ 1 <<< i)) ||| b <<< i).testBit j
      = if j = i then decide (b = 1) else x.testBit j := by
  have h255 : (255 : Nat) = 2 ^ 8 - 1 := by norm_num
  rw [Nat.testBit_lor, Nat.testBit_and, Nat.testBit_xor, Nat.one_shiftLeft,
    Nat.testBit_two_pow, h255, Nat.testBit_two_pow_sub_one, Nat.testBit_shiftLeft]
  rcases eq_or_ne j i with he | hne
  · subst he
    have hd : decide (j < 8) = true := by simp [hj]
    have hd2 : decide (j ≥ j) = true := by simp
    have hd3 : decide (j = j) = true := by simp
    rw [hd, hd2, hd3, Nat.sub_self]
    interval_cases b <;> simp
  · have hd : decide (i = j) = false := by simp [Ne.symm hne]
    have hd2 : decide (j < 8) = true := by simp [hj]
    have hbt : (decide (j ≥ i) && b.testBit (j - i)) = false := by
      rcases Nat.lt_or_ge j i with hlt | hge
      · have : decide (j ≥ i) = false := by simp; omega
        rw [this, Bool.false_and]
      · have h1 : 1 ≤ j - i := by omega
        have : b.testBit (j - i) = false :=
          Nat.testBit_lt_two_pow (lt_of_lt_of_le hb (by
            calc (2 : Nat) = 2 ^ 1 := by norm_num
              _ ≤ 2 ^ (j - i) := Nat.pow_le_pow_right (by omega) h1))
        rw [this, Bool.and_false]
    rw [hbt, hd, hd2]
    simp [hne]

/-- Writing a bit does not change the buffer length. -/
theorem length_setBitO (o : ByteOrder) (data : List Nat) (p b : Nat) :
    (setBitO o data p b).length = data.length := by
  unfold setBitO
  rw [List.length_set]

/-- Reading back the bit just written. -/
theorem getBitO_setBitO_self (o : ByteOrder) (data : List Nat) (p b : Nat)
    (hp : p / 8 < data.length) (hb : b < 2) :
    getBitO o (setBitO o data p b) p = b := by
  unfold getBitO setBitO
  have hset : (data.set (p / 8)
      ((data.getD (p / 8) 0 &&& (255 ^^^ 1 <<< bitIdx o p)) ||| b <<< bitIdx o p)).getD
        (p / 8) 0
      = (data.getD (p / 8) 0 &&& (255 ^^^ 1 <<< bitIdx o p)) ||| b <<< bitIdx o p := by
    rw [List.getD_eq_getElem?_getD, List.getElem?_set_self (by simpa using hp)]
    rfl
  rw [hset, shiftRight_and_one,
    testBit_setByte _ b _ _ (bitIdx_lt o p) (bitIdx_lt o p) hb]
  rw [if_pos rfl]
  interval_cases b <;> simp

/-- Writing one bit leaves every other bit unchanged (also when the write
position is past the buffer and the write is a no-op). -/
theorem getBitO_setBitO_ne (o : ByteOrder) (data : List Nat) (p q b : Nat)
    (hb : b < 2) (hne : p ≠ q) :
    getBitO o (setBitO o data q b) p = getBitO o data p := by
  rcases Nat.lt_or_ge (q / 8) data.length with hq | hq
  swap
  · unfold setBitO
    rw [List.set_eq_of_length_le (by omega)]
  unfold getBitO setBitO
  rcases eq_or_ne (p / 8) (q / 8) with hsame | hdiff
  · have hset : (data.set (q / 8)
        ((data.getD (q / 8) 0 &&& (255 ^^^ 1 <<< bitIdx o q)) ||| b <<< bitIdx o q)).getD
          (p / 8) 0
        = (data.getD (q / 8) 0 &&& (255 ^^^ 1 <<< bitIdx o q)) ||| b <<< bitIdx o q := by
      rw [hsame, List.getD_eq_getElem?_getD, List.getElem?_set_self (by simpa using hq)]
      rfl
    rw [hset, shiftRight_and_one,
      testBit_setByte _ b _ _ (bitIdx_lt o q) (bitIdx_lt o p) hb,
      if_neg (bitIdx_inj o hsame hne), hsame, shiftRight_and_one]
  · have hset : (data.set (q / 8)
        ((data.getD (q / 8) 0 &&& (255 ^^^ 1 <<< bitIdx o q)) ||| b <<< bitIdx o q)).getD
          (p / 8) 0
        = data.getD (p / 8) 0 := by
      rw [List.getD_eq_getElem?_getD, List.getElem?_set_ne (Ne.symm hdiff),
        List.getD_eq_getElem?_getD]
    rw [hset]

/-- Packing preserves the buffer length (big-endian packing). -/
theorem length_packBE (w : Nat) : ∀ (data : List Nat) (start v : Nat),
    (packBE data start w v).length = data.length := by
  induction w with
  | zero => intro data start v; rfl
  | succ w ih =>
    intro data start v
    unfold packBE
    rw [ih, length_setBitO]

/-- Packing preserves the buffer length (little-endian packing). -/
theorem length_packLE (w : Nat) : ∀ (data : List Nat) (start v : Nat),
    (packLE data start w v).length = data.length := by
  induction w with
  | zero => intro data start v; rfl
  | succ w ih =>
    intro data start v
    unfold packLE
    rw [ih, length_setBitO]

/-- A single extracted bit is below 2. -/
theorem and_one_lt_two (x : Nat) : x &&& 1 < 2 :=
  Nat.lt_succ_of_le (@Nat.and_le_right x 1)

/-- Big-endian packing does not touch bits before `start`. -/
theorem getBitO_packBE_lt (w : Nat) : ∀ (data : List Nat) (start v p : Nat), p < start →
    getBitO ByteOrder.BigEndian (packBE data start w v) p
      = getBitO ByteOrder.BigEndian data p := by
  induction w with
  | zero => intro data start v p _; rfl
  | succ w ih =>
    intro data start v p hp
    unfold packBE
    rw [ih _ (start + 1) v p (by omega),
      getBitO_setBitO_ne _ _ _ _ _ (and_one_lt_two _) (by omega)]

/-- Little-endian packing does not touch bits before `start`. -/
theorem getBitO_packLE_lt (w : Nat) : ∀ (data : List Nat) (start v p : Nat), p < start →
    getBitO ByteOrder.LittleEndian (packLE data start w v) p
      = getBitO ByteOrder.LittleEndian data p := by
  induction w with
  | zero => intro data start v p _; rfl
  | succ w ih =>
    intro data start v p hp
    unfold packLE
    rw [ih _ (start + 1) (v >>> 1) p (by omega),
      getBitO_setBitO_ne _ _ _ _ _ (and_one_lt_two _) (by omega)]

/-- Splitting off the top bit of a `w + 1`-bit value. -/
theorem mod_two_pow_succ (v w : Nat) :
    v % 2 ^ (w + 1) = v / 2 ^ w % 2 * 2 ^ w + v % 2 ^ w := by
  rw [pow_succ, Nat.mod_mul]
  ring

/-- Extracting the MSB-first packed bits returns the packed value. -/
theorem beSpec_packBE (w : Nat) : ∀ (data : List Nat) (start v : Nat),
    start + w ≤ 8 * data.length →
    beSpec (packBE data start w v) start w = v % 2 ^ w := by
  induction w with
  | zero => intro data start v _; simp [packBE, beSpec, Nat.mod_one]
  | succ w ih =>
    intro data start v hrange
    unfold packBE
    simp only [beSpec]
    have hstart : start / 8 < data.length := by omega
    have htop : getBitO ByteOrder.BigEndian
        (packBE (setBitO ByteOrder.BigEndian data start (v >>> w &&& 1)) (start + 1) w v)
        start = v >>> w &&& 1 := by
      rw [getBitO_packBE_lt w _ (start + 1) v start (by omega),
        getBitO_setBitO_self _ _ _ _ hstart (and_one_lt_two _)]
    have hrest : beSpec
        (packBE (setBitO ByteOrder.BigEndian data start (v >>> w &&& 1)) (start + 1) w v)
        (start + 1) w = v % 2 ^ w := by
      rw [ih _ (start + 1) v (by rw [length_setBitO]; omega)]
    rw [htop, hrest, Nat.and_one_is_mod, Nat.shiftRight_eq_div_pow, mod_two_pow_succ]

/-- Extracting the LSB-first packed bits returns the packed value. -/
theorem leSpec_packLE (w : Nat) : ∀ (data : List Nat) (start v : Nat),
    start + w ≤ 8 * data.length →
    leSpec (packLE data start w v) start w = v % 2 ^ w := by
  induction w with
  | zero => intro data start v _; simp [packLE, leSpec, Nat.mod_one]
  | succ w ih =>
    intro data start v hrange
    unfold packLE
    simp only [leSpec]
    have hstart : start / 8 < data.length := by omega
    have hlow : getBitO ByteOrder.LittleEndian
        (packLE (setBitO ByteOrder.LittleEndian data start (v &&& 1)) (start + 1) w (v >>> 1))
        start = v &&& 1 := by
      rw [getBitO_packLE_lt w _ (start + 1) (v >>> 1) start (by omega),
        getBitO_setBitO_self _ _ _ _ hstart (and_one_lt_two _)]
    have hrest : leSpec
        (packLE (setBitO ByteOrder.LittleEndian data start (v &&& 1)) (start + 1) w (v >>> 1))
        (start + 1) w = v >>> 1 % 2 ^ w := by
      rw [ih _ (start + 1) (v >>> 1) (by rw [length_setBitO]; omega)]
    rw [hlow, hrest, Nat.and_one_is_mod, Nat.shiftRight_eq_div_pow]
    have hsplit : v % 2 ^ (w + 1) = v % 2 + 2 * (v / 2 ^ 1 % 2 ^ w) := by
      rw [pow_succ, mul_comm (2 ^ w) 2, Nat.mod_mul]
      norm_num
    rw [hsplit]

/-- Big-endian round trip: packing then extracting returns the value. -/
theorem extract_packBE (data : List Nat) (start w v : Nat) (hw : 1 ≤ w) (h64 : w ≤ 64)
    (hr : start + w ≤ data.length * 8) (hv : v < 2 ^ w) :
    extract_signal_value (packBE data start w v) start w ByteOrder.BigEndian = some v := by
  rw [extract_be _ _ _ hw h64 (by rw [length_packBE]; omega),
    beSpec_packBE w data start v (by omega), Nat.mod_eq_of_lt hv]

/-- Little-endian round trip: packing then extracting returns the value. -/
theorem extract_packLE (data : List Nat) (start w v : Nat) (hw : 1 ≤ w) (h64 : w ≤ 64)
    (hr : start + w ≤ data.length * 8) (hv : v < 2 ^ w) :
    extract_signal_value (packLE data start w v) start w ByteOrder.LittleEndian = some v := by
  rw [extract_le _ _ _ hw h64 (by rw [length_packLE]; omega),
    leSpec_packLE w data start v (by omega), Nat.mod_eq_of_lt hv]

/-- The big-endian accumulator is a `u64`: it always stays below `2 ^ 64`. -/
theorem beLoop_lt64 (data : List Nat) : ∀ (n bitPos r : Nat), r < 2 ^ 64 →
    beLoop data bitPos n r < 2 ^ 64 := by
  intro n
  induction n with
  | zero => intro bitPos r hr; exact hr
  | succ n ih =>
    intro bitPos r hr
    unfold beLoop
    split
    · apply ih
      exact Nat.or_lt_two_pow (Nat.mod_lt _ (Nat.pos_pow_of_pos _ (by omega)))
        (lt_of_lt_of_le (and_one_lt_two _) (by norm_num))
    · exact hr

/-- The little-endian accumulator is a `u64`: it always stays below
`2 ^ 64`. -/
theorem leLoop_lt64 (data : List Nat) (size : Nat) : ∀ (fuel remaining cb off r : Nat),
    data.length ≤ cb + fuel → r < 2 ^ 64 →
    leLoop data size remaining cb off r < 2 ^ 64 := by
  intro fuel
  induction fuel with
  | zero =>
    intro remaining cb off r hfuel hr
    rw [leLoop, dif_neg (by omega)]
    exact hr
  | succ fuel ih =>
    intro remaining cb off r hfuel hr
    by_cases h : 0 < remaining ∧ cb < data.length
    · rw [leLoop_step data size remaining cb off r h.1 h.2]
      apply ih
      · omega
      · exact Nat.or_lt_two_pow hr (Nat.mod_lt _ (Nat.pos_pow_of_pos _ (by omega)))
    · rw [leLoop, dif_neg h]
      exact hr

/-- Every successful extraction fits in `bit_width` bits (spec §8 first
property); for widths up to 64 via the refinement theorems, and for larger
widths because the accumulator is a `u64`. -/
theorem extract_signal_value_lt (data : List Nat) (start w : Nat) (o : ByteOrder) (v : Nat)
    (hw : 1 ≤ w) (hr : start + w ≤ data.length * 8)
    (hv : extract_signal_value data start w o = some v) : v < 2 ^ w := by
  rcases le_or_lt w 64 with h64 | h64
  · cases o with
    | LittleEndian =>
      rw [extract_le data start w hw h64 hr] at hv
      injection hv with h
      rw [← h]
      exact leSpec_lt data start w
    | BigEndian =>
      rw [extract_be data start w hw h64 hr] at hv
      injection hv with h
      rw [← h]
      exact beSpec_lt data start w
  · have hbig : (2 : Nat) ^ 64 ≤ 2 ^ w := Nat.pow_le_pow_right (by omega) (by omega)
    unfold extract_signal_value at hv
    rw [if_neg (by omega), if_neg (by omega)] at hv
    cases o with
    | LittleEndian =>
      injection hv with h
      rw [← h]
      exact lt_of_lt_of_le
        (leLoop_lt64 data w data.length w (start / 8) (start % 8) 0 (by omega)
          (Nat.pos_pow_of_pos _ (by omega)))
        hbig
    | BigEndian =>
      injection hv with h
      rw [← h]
      exact lt_of_lt_of_le
        (beLoop_lt64 data w start 0 (Nat.pos_pow_of_pos _ (by omega)))
        hbig

/-! Lemmas about the decoded-signal map and the `decode_msg` fold. -/

/-- Lookup skips the entries erased by the filter used in `insertSig`. -/
theorem sigLookup_filter_ne (m : List (String × DecodedSignal)) (k k' : String)
    (hne : k' ≠ k) :
    sigLookup (m.filter (fun p => !(p.1 = k' : Bool))) k = sigLookup m k := by
  induction m with
  | nil => rfl
  | cons hd tl ih =>
    obtain ⟨k1, v1⟩ := hd
    by_cases h : k1 = k'
    · subst h
      simp [List.filter_cons, sigLookup, hne, ih]
    · simp [List.filter_cons, sigLookup, h, ih]

/-- Lookup after `insertSig`: the inserted binding shadows the key. -/
theorem sigLookup_insertSig (m : List (String × DecodedSignal)) (k k' : String)
    (v : DecodedSignal) :
    sigLookup (insertSig m k' v) k = if k' = k then some v else sigLookup m k := by
  unfold insertSig
  by_cases h : k' = k
  · simp [sigLookup, h]
  · simp [sigLookup, h, sigLookup_filter_ne m k k' h]

/-- A key is present after the `decode_msg` fold exactly when it was
present before or some listed signal decodes successfully to that name. -/
theorem sigLookup_foldl_isSome (data : List Nat) (sigs : List Signal) :
    ∀ (acc : List (String × DecodedSignal)) (k : String),
    (sigLookup (sigs.foldl (decodeStep data) acc) k).isSome = true
      ↔ (sigLookup acc k).isSome = true
        ∨ ∃ sd ∈ sigs, ∃ ds, decode_signal sd data = some ds ∧ ds.name = k := by
  induction sigs with
  | nil => intro acc k; simp
  | cons sd sigs ih =>
    intro acc k
    rw [List.foldl_cons, ih (decodeStep data acc sd) k]
    cases hds : decode_signal sd data with
    | none =>
      have hstep : decodeStep data acc sd = acc := by
        unfold decodeStep
        rw [hds]
      rw [hstep]
      constructor
      · rintro (h | ⟨sd', hmem, hP⟩)
        · exact Or.inl h
        · exact Or.inr ⟨sd', List.mem_cons_of_mem _ hmem, hP⟩
      · rintro (h | ⟨sd', hmem, ds, hds', hname⟩)
        · exact Or.inl h
        · rcases List.mem_cons.mp hmem with he | hm
          · subst he
            rw [hds] at hds'
            cases hds'
          · exact Or.inr ⟨sd', hm, ds, hds', hname⟩
    | some ds0 =>
      have hstep : decodeStep data acc sd = insertSig acc ds0.name ds0 := by
        unfold decodeStep
        rw [hds]
      rw [hstep]
      by_cases hk : ds0.name = k
      · have hsome : (sigLookup (insertSig acc ds0.name ds0) k).isSome = true := by
          rw [sigLookup_insertSig, if_pos hk]
          rfl
        rw [hsome]
        constructor
        · intro _
          exact Or.inr ⟨sd, List.mem_cons_self _ _, ds0, hds, hk⟩
        · intro _
          exact Or.inl rfl
      · have hsame : sigLookup (insertSig acc ds0.name ds0) k = sigLookup acc k := by
          rw [sigLookup_insertSig, if_neg hk]
        rw [hsame]
        constructor
        · rintro (h | ⟨sd', hmem, hP⟩)
          · exact Or.inl h
          · exact Or.inr ⟨sd', List.mem_cons_of_mem _ hmem, hP⟩
        · rintro (h | ⟨sd', hmem, ds, hds', hname⟩)
          · exact Or.inl h
          · rcases List.mem_cons.mp hmem with he | hm
            · subst he
              rw [hds] at hds'
              injection hds' with hd0
              subst hd0
              exact absurd hname hk
            · exact Or.inr ⟨sd', hm, ds, hds', hname⟩

/-- Every binding produced by the `decode_msg` fold maps a key to a signal
carrying that key as its name. -/
theorem sigLookup_foldl_name (data : List Nat) (sigs : List Signal) :
    ∀ acc, (∀ k v, sigLookup acc k = some v → v.name = k) →
    ∀ k v, sigLookup (sigs.foldl (decodeStep data) acc) k = some v → v.name = k := by
  induction sigs with
  | nil => intro acc hacc; exact hacc
  | cons sd sigs ih =>
    intro acc hacc
    rw [List.foldl_cons]
    apply ih
    intro k v h
    cases hds : decode_signal sd data with
    | none =>
      have hstep : decodeStep data acc sd = acc := by
        unfold decodeStep
        rw [hds]
      rw [hstep] at h
      exact hacc k v h
    | some ds0 =>
      have hstep : decodeStep data acc sd = insertSig acc ds0.name ds0 := by
        unfold decodeStep
        rw [hds]
      rw [hstep, sigLookup_insertSig] at h
      by_cases hk : ds0.name = k
      · rw [if_pos hk] at h
        injection h with hv
        rw [← hv]
        exact hk
      · rw [if_neg hk] at h
        exact hacc k v h

/-! Branch equations for `decode_signal` and `decode_msg`. -/

/-- Value of `decode_signal` for a signed signal whose raw sign bit is set:
the raw value is ORed with the mask of all bits above the width and the
resulting 64-bit pattern is read as a signed integer. -/
theorem decode_signal_signed_neg (s : Signal) (data : List Nat) (raw_value : Nat)
    (hex : extract_signal_value data s.start_bit s.size s.byte_order = some raw_value)
    (hsig : s.value_type = ValueType.Signed)
    (hneg : raw_value &&& shl64 1 (s.size - 1) ≠ 0) :
    decode_signal s data = some
      { name := s.name
        value := ((toI64 (raw_value ||| unot64 (shl64 1 s.size - 1)) : Int) : Rat)
          * s.factor + s.offset
        unit := s.unit } := by
  unfold decode_signal
  rw [hex]
  simp only []
  rw [if_pos hsig, if_pos hneg]

/-- Value of `decode_signal` for a signed signal whose raw sign bit is
clear: the raw value is used as is. -/
theorem decode_signal_signed_nonneg (s : Signal) (data : List Nat) (raw_value : Nat)
    (hex : extract_signal_value data s.start_bit s.size s.byte_order = some raw_value)
    (hsig : s.value_type = ValueType.Signed)
    (hz : raw_value &&& shl64 1 (s.size - 1) = 0) :
    decode_signal s data = some
      { name := s.name
        value := (raw_value : Rat) * s.factor + s.offset
        unit := s.unit } := by
  unfold decode_signal
  rw [hex]
  simp only []
  rw [if_pos hsig, if_neg (by simp [hz])]

/-- Value of `decode_signal` for an unsigned signal. -/
theorem decode_signal_unsigned (s : Signal) (data : List Nat) (raw_value : Nat)
    (hex : extract_signal_value data s.start_bit s.size s.byte_order = some raw_value)
    (hsig : s.value_type = ValueType.Unsigned) :
    decode_signal s data = some
      { name := s.name
        value := (raw_value : Rat) * s.factor + s.offset
        unit := s.unit } := by
  unfold decode_signal
  rw [hex]
  simp only []
  rw [if_neg (by rw [hsig]; intro hc; cases hc)]

/-- Shape of `decode_msg` on a known message id. -/
theorem decode_msg_eq_some (p : Parser) (msg_id : Nat) (data : List Nat) (msg_def : Message)
    (hlook : lookupDef p.msg_defs msg_id = some msg_def) :
    decode_msg p msg_id data = some
      { name := msg_def.name
        msg_id := msg_id
        is_extended := match msg_def.id with
          | MessageId.Extended _ => true
          | MessageId.Standard _ => false
        signals := msg_def.signals.foldl (decodeStep data) [] } := by
  unfold decode_msg
  rw [hlook]

/-! Claim theorems. -/

/-- C2: `extract_signal_value` returns no value exactly when the buffer is
empty, the width is zero, or `start_bit + bit_width` exceeds
`buffer.len() * 8`; in every other case it returns some value. -/
theorem C2_extract_failure_iff (data : List Nat) (start_bit size : Nat) (o : ByteOrder) :
    (extract_signal_value data start_bit size o = none
      ↔ (data = [] ∨ size = 0 ∨ start_bit + size > data.length * 8))
    ∧ (¬(data = [] ∨ size = 0 ∨ start_bit + size > data.length * 8) →
        ∃ v, extract_signal_value data start_bit size o = some v) := by
  have hiff : extract_signal_value data start_bit size o = none
      ↔ (data = [] ∨ size = 0 ∨ start_bit + size > data.length * 8) := by
    unfold extract_signal_value
    by_cases h1 : data.length = 0 ∨ size = 0
    · rw [if_pos h1]
      have h2 : data = [] ∨ size = 0 ∨ start_bit + size > data.length * 8 := by
        rcases h1 with h | h
        · exact Or.inl (List.length_eq_zero.mp h)
        · exact Or.inr (Or.inl h)
      simp [h2]
    · rw [if_neg h1]
      push_neg at h1
      by_cases h2 : start_bit + size > data.length * 8
      · rw [if_pos h2]
        simp [h2]
      · rw [if_neg h2]
        have h3 : ¬(data = [] ∨ size = 0 ∨ start_bit + size > data.length * 8) := by
          push_neg
          refine ⟨?_, h1.2, by omega⟩
          intro h0
          exact h1.1 (by rw [h0]; rfl)
        cases o <;> simp [h3]
  refine ⟨hiff, ?_⟩
  intro h
  cases hx : extract_signal_value data start_bit size o with
  | none => exact absurd (hiff.mp hx) h
  | some v => exact ⟨v, rfl⟩

/-- C2 witness: on the one-byte buffer `[0x12]` with an 8-bit field none of
the failure conditions hold and extraction succeeds. -/
theorem C2_extract_failure_iff_witness :
    ¬([0x12] = ([] : List Nat) ∨ 8 = 0 ∨ 0 + 8 > [0x12].length * 8)
    ∧ ∃ v, extract_signal_value [0x12] 0 8 ByteOrder.BigEndian = some v :=
  ⟨by simp, (C2_extract_failure_iff [0x12] 0 8 ByteOrder.BigEndian).2 (by simp)⟩

/-- C3: for an in-range big-endian field (of the `u64`-representable widths
1..64), extraction returns exactly the MSB-first value `beSpec`, whose bit
at step `i` is read from byte `(start_bit + i) / 8` at position
`7 - (start_bit + i) % 8` from the LSB; and packing any `bit_width`-bit
integer MSB-first at `start_bit` and extracting it big-endian returns that
integer. -/
theorem C3_big_endian_msb_first (data : List Nat) (start_bit size : Nat)
    (hw : 1 ≤ size) (h64 : size ≤ 64) (hr : start_bit + size ≤ data.length * 8) :
    extract_signal_value data start_bit size ByteOrder.BigEndian
        = some (beSpec data start_bit size)
    ∧ ∀ v, v < 2 ^ size →
        extract_signal_value (packBE data start_bit size v) start_bit size
          ByteOrder.BigEndian = some v :=
  ⟨extract_be data start_bit size hw h64 hr,
   fun v hv => extract_packBE data start_bit size v hw h64 hr hv⟩

/-- C3 witness: the non-aligned 8-bit big-endian field at bit 4 of
`[0x12, 0x34]` and its round trip at value `0xAB`. -/
theorem C3_big_endian_msb_first_witness :
    (1 ≤ 8 ∧ 8 ≤ 64 ∧ 4 + 8 ≤ [0x12, 0x34].length * 8 ∧ (0xAB : Nat) < 2 ^ 8)
    ∧ extract_signal_value [0x12, 0x34] 4 8 ByteOrder.BigEndian
        = some (beSpec [0x12, 0x34] 4 8)
    ∧ extract_signal_value (packBE [0x12, 0x34] 4 8 0xAB) 4 8 ByteOrder.BigEndian
        = some 0xAB :=
  ⟨by norm_num,
   (C3_big_endian_msb_first [0x12, 0x34] 4 8 (by norm_num) (by norm_num) (by norm_num)).1,
   (C3_big_endian_msb_first [0x12, 0x34] 4 8 (by norm_num) (by norm_num) (by norm_num)).2
     0xAB (by norm_num)⟩

/-- C4: for every width in {1, 4, 8, 16, 32, 64}, packing a value of at
most that many significant bits with the inverse little-endian packing rule
at any in-range start bit and extracting little-endian returns the value;
and on the concrete buffer `[0x12, 0x34, 0x56, 0x78, 0x9A, 0xBC, 0xDE,
0xF0]`, the 8-bit little-endian field at bit 0 extracts to `0x12 = 18`. -/
theorem C4_little_endian_round_trip :
    (∀ size, (size = 1 ∨ size = 4 ∨ size = 8 ∨ size = 16 ∨ size = 32 ∨ size = 64) →
      ∀ (data : List Nat) (start_bit v : Nat), start_bit + size ≤ data.length * 8 →
        v < 2 ^ size →
        extract_signal_value (packLE data start_bit size v) start_bit size
          ByteOrder.LittleEndian = some v)
    ∧ extract_signal_value [0x12, 0x34, 0x56, 0x78, 0x9A, 0xBC, 0xDE, 0xF0] 0 8
        ByteOrder.LittleEndian = some 0x12
    ∧ (0x12 : Nat) = 18 := by
  refine ⟨?_, ?_, rfl⟩
  · intro size hsize data start_bit v hr hv
    have h1 : 1 ≤ size := by rcases hsize with h | h | h | h | h | h <;> omega
    have h64 : size ≤ 64 := by rcases hsize with h | h | h | h | h | h <;> omega
    exact extract_packLE data start_bit size v h1 h64 hr hv
  · rw [extract_le [0x12, 0x34, 0x56, 0x78, 0x9A, 0xBC, 0xDE, 0xF0] 0 8 (by norm_num)
      (by norm_num) (by norm_num)]
    decide

/-- C4 witness: an 8-bit round trip at the non-aligned start bit 3 of a
two-byte buffer, for value 100. -/
theorem C4_little_endian_round_trip_witness :
    (3 + 8 ≤ [0, 0].length * 8 ∧ (100 : Nat) < 2 ^ 8)
    ∧ extract_signal_value (packLE [0, 0] 3 8 100) 3 8 ByteOrder.LittleEndian
        = some 100 :=
  ⟨by norm_num,
   C4_little_endian_round_trip.1 8 (by tauto) [0, 0] 3 100 (by norm_num) (by norm_num)⟩

/-- C7: every successful extraction of an in-range field of width at least
one, under either byte order, yields a value in `[0, 2 ^ bit_width - 1]`. -/
theorem C7_extract_in_bit_width (data : List Nat) (start_bit size : Nat) (o : ByteOrder)
    (v : Nat) (hw : 1 ≤ size) (hr : start_bit + size ≤ data.length * 8)
    (hv : extract_signal_value data start_bit size o = some v) :
    v < 2 ^ size :=
  extract_signal_value_lt data start_bit size o v hw hr hv

/-- C7 witness: the 8-bit big-endian field at bit 0 of `[0x12]` extracts to
18, which is below `2 ^ 8`. -/
theorem C7_extract_in_bit_width_witness :
    (1 ≤ 8 ∧ 0 + 8 ≤ [0x12].length * 8
      ∧ extract_signal_value [0x12] 0 8 ByteOrder.BigEndian = some 18)
    ∧ (18 : Nat) < 2 ^ 8 :=
  ⟨⟨by norm_num, by norm_num, by decide⟩,
   C7_extract_in_bit_width [0x12] 0 8 ByteOrder.BigEndian 18 (by norm_num) (by norm_num)
     (by decide)⟩

/-- C5: for signed layouts with unit scale and zero offset, decoding
performs two's-complement sign extension at exactly `bit_width` bits: at
width 8 the raw values `0xFF` and `0x7F` decode to -1 and 127, and at
width 1 the raw values 1 and 0 decode to -1 and 0. -/
theorem C5_sign_extension (s : Signal) (data : List Nat)
    (hsig : s.value_type = ValueType.Signed) (hf : s.factor = 1) (ho : s.offset = 0) :
    ((s.size = 8 ∧ extract_signal_value data s.start_bit s.size s.byte_order = some 0xFF) →
      decode_signal s data = some (DecodedSignal.mk s.name (-1) s.unit))
    ∧ ((s.size = 8 ∧ extract_signal_value data s.start_bit s.size s.byte_order = some 0x7F) →
      decode_signal s data = some (DecodedSignal.mk s.name 127 s.unit))
    ∧ ((s.size = 1 ∧ extract_signal_value data s.start_bit s.size s.byte_order = some 1) →
      decode_signal s data = some (DecodedSignal.mk s.name (-1) s.unit))
    ∧ ((s.size = 1 ∧ extract_signal_value data s.start_bit s.size s.byte_order = some 0) →
      decode_signal s data = some (DecodedSignal.mk s.name 0 s.unit)) := by
  refine ⟨?_, ?_, ?_, ?_⟩
  · rintro ⟨h8, hex⟩
    rw [decode_signal_signed_neg s data 0xFF hex hsig (by rw [h8]; decide), h8, hf, ho]
    have ht : toI64 (0xFF ||| unot64 (shl64 1 8 - 1)) = -1 := by decide
    rw [ht]
    norm_num
  · rintro ⟨h8, hex⟩
    rw [decode_signal_signed_nonneg s data 0x7F hex hsig (by rw [h8]; decide), hf, ho]
    norm_num
  · rintro ⟨h1, hex⟩
    rw [decode_signal_signed_neg s data 1 hex hsig (by rw [h1]; decide), h1, hf, ho]
    have ht : toI64 (1 ||| unot64 (shl64 1 1 - 1)) = -1 := by decide
    rw [ht]
    norm_num
  · rintro ⟨h1, hex⟩
    rw [decode_signal_signed_nonneg s data 0 hex hsig (by rw [h1]; decide), hf, ho]
    norm_num

/-- C5 witness: the four §8 sign-extension vectors on concrete one-byte
buffers, big-endian. -/
theorem C5_sign_extension_witness :
    decode_signal sC5a [0xFF] = some (DecodedSignal.mk "s" (-1) "u")
    ∧ decode_signal sC5a [0x7F] = some (DecodedSignal.mk "s" 127 "u")
    ∧ decode_signal sC5b [0x80] = some (DecodedSignal.mk "s" (-1) "u")
    ∧ decode_signal sC5b [0x00] = some (DecodedSignal.mk "s" 0 "u") :=
  ⟨(C5_sign_extension sC5a [0xFF] rfl rfl rfl).1 ⟨rfl, by decide⟩,
   (C5_sign_extension sC5a [0x7F] rfl rfl rfl).2.1 ⟨rfl, by decide⟩,
   (C5_sign_extension sC5b [0x80] rfl rfl rfl).2.2.1 ⟨rfl, by decide⟩,
   (C5_sign_extension sC5b [0x00] rfl rfl rfl).2.2.2 ⟨rfl, by decide⟩⟩

/-- C8: whenever extraction succeeds, the decoded record carries the
layout's name and unit, and its value is the sign-adjusted raw value times
the scale factor plus the offset; concretely raw 16 with factor 0.5 and
offset 10 gives 18. -/
theorem C8_scaling (s : Signal) (data : List Nat) (raw_value : Nat) (d : DecodedSignal)
    (hex : extract_signal_value data s.start_bit s.size s.byte_order = some raw_value)
    (hd : decode_signal s data = some d) :
    d.value = (if s.value_type = ValueType.Signed
          ∧ raw_value &&& shl64 1 (s.size - 1) ≠ 0
        then ((toI64 (raw_value ||| unot64 (shl64 1 s.size - 1)) : Int) : Rat)
        else (raw_value : Rat)) * s.factor + s.offset
    ∧ d.name = s.name ∧ d.unit = s.unit
    ∧ (raw_value = 16 → s.factor = 1 / 2 → s.offset = 10 → s.value_type = ValueType.Unsigned →
        d.value = 18) := by
  have hmain : d.value = (if s.value_type = ValueType.Signed
          ∧ raw_value &&& shl64 1 (s.size - 1) ≠ 0
        then ((toI64 (raw_value ||| unot64 (shl64 1 s.size - 1)) : Int) : Rat)
        else (raw_value : Rat)) * s.factor + s.offset
      ∧ d.name = s.name ∧ d.unit = s.unit := by
    cases hvt : s.value_type with
    | Signed =>
      by_cases hneg : raw_value &&& shl64 1 (s.size - 1) ≠ 0
      · rw [decode_signal_signed_neg s data raw_value hex hvt hneg] at hd
        injection hd with hd
        rw [← hd, if_pos ⟨rfl, hneg⟩]
        exact ⟨rfl, rfl, rfl⟩
      · rw [decode_signal_signed_nonneg s data raw_value hex hvt (by omega)] at hd
        injection hd with hd
        rw [← hd, if_neg (by intro hc; exact hneg hc.2)]
        exact ⟨rfl, rfl, rfl⟩
    | Unsigned =>
      rw [decode_signal_unsigned s data raw_value hex hvt] at hd
      injection hd with hd
      rw [← hd, if_neg (by intro hc; cases hc.1)]
      exact ⟨rfl, rfl, rfl⟩
  refine ⟨hmain.1, hmain.2.1, hmain.2.2, ?_⟩
  intro h16 hf ho hvt
  rw [hmain.1, h16, hf, ho, if_neg (by intro hc; rw [hvt] at hc; cases hc.1)]
  norm_num

/-- C8 witness: the §8 scaling vector, raw 16 with factor 0.5 and offset 10
decoding to 18. -/
theorem C8_scaling_witness : decode_signal sC8 [16] = some dC8 ∧ dC8.value = 18 := by
  have hd : decode_signal sC8 [16] = some dC8 := by
    rw [decode_signal_unsigned sC8 [16] 16 (by decide) rfl]
    have hv : ((16 : Nat) : Rat) * sC8.factor + sC8.offset = 18 := by
      show ((16 : Nat) : Rat) * (1 / 2) + 10 = 18
      norm_num
    rw [hv]
    rfl
  exact ⟨hd, (C8_scaling sC8 [16] 16 dC8 (by decide) hd).2.2.2 rfl rfl rfl rfl⟩

/-- C6: `decode_msg` returns no value exactly when the id is unknown to
the catalog, and on a known id it returns a message whose signal map holds
a key exactly when some signal layout of that message decodes successfully
to that name — so one failing signal only drops its own entry, and an
all-fail decode still returns a (distinguishable) message with an empty
map. -/
theorem C6_decode_msg_behavior (p : Parser) (msg_id : Nat) (data : List Nat) :
    (decode_msg p msg_id data = none ↔ lookupDef p.msg_defs msg_id = none)
    ∧ (∀ msg_def dm, lookupDef p.msg_defs msg_id = some msg_def →
        decode_msg p msg_id data = some dm →
        ∀ k, (sigLookup dm.signals k).isSome = true
          ↔ ∃ sd ∈ msg_def.signals, ∃ ds, decode_signal sd data = some ds ∧ ds.name = k) := by
  constructor
  · unfold decode_msg
    cases hlook : lookupDef p.msg_defs msg_id with
    | none => simp
    | some msg_def => simp
  · intro msg_def dm hlook hdm
    rw [decode_msg_eq_some p msg_id data msg_def hlook] at hdm
    injection hdm with hdm
    rw [← hdm]
    intro k
    rw [sigLookup_foldl_isSome data msg_def.signals [] k]
    simp [sigLookup]

/-- C6 witness: in the three-signal message `msgX` whose signal "C" is out
of range on the 8-byte buffer, the decoded map holds "A" and "B" but not
"C", and the unknown id `0x11` gives no message while the known `0x10`
gives one. -/
theorem C6_decode_msg_behavior_witness :
    ((sigLookup dmX.signals "A").isSome = true
      ↔ ∃ sd ∈ msgX.signals, ∃ ds, decode_signal sd dataX = some ds ∧ ds.name = "A")
    ∧ ((sigLookup dmX.signals "C").isSome = true
      ↔ ∃ sd ∈ msgX.signals, ∃ ds, decode_signal sd dataX = some ds ∧ ds.name = "C")
    ∧ (decode_msg parserX 0x11 dataX = none ↔ lookupDef parserX.msg_defs 0x11 = none) :=
  ⟨(C6_decode_msg_behavior parserX 0x10 dataX).2 msgX dmX rfl rfl "A",
   (C6_decode_msg_behavior parserX 0x10 dataX).2 msgX dmX rfl rfl "C",
   (C6_decode_msg_behavior parserX 0x11 dataX).1⟩

/-- C9: every decoded message maps each key to a signal whose name equals
the key, carries the `msg_id` it was called with, and is flagged extended
exactly when the catalog definition for that id is an extended
identifier. -/
theorem C9_decoded_message_invariants (p : Parser) (msg_id : Nat) (data : List Nat)
    (dm : DecodedMessage) (hdm : decode_msg p msg_id data = some dm) :
    (∀ k v, sigLookup dm.signals k = some v → v.name = k)
    ∧ dm.msg_id = msg_id
    ∧ (∀ msg_def, lookupDef p.msg_defs msg_id = some msg_def →
        (dm.is_extended = true ↔ ∃ i, msg_def.id = MessageId.Extended i)) := by
  cases hlook : lookupDef p.msg_defs msg_id with
  | none =>
    unfold decode_msg at hdm
    rw [hlook] at hdm
    simp at hdm
  | some msg_def =>
    rw [decode_msg_eq_some p msg_id data msg_def hlook] at hdm
    injection hdm with hdm
    rw [← hdm]
    refine ⟨?_, rfl, ?_⟩
    · exact sigLookup_foldl_name data msg_def.signals []
        (by intro k v h; simp [sigLookup] at h)
    · intro msg_def' hlook'
      injection hlook' with he
      subst he
      cases hid : msg_def.id with
      | Standard i => simp [hid]
      | Extended i => simp [hid]

/-- C9 witness: the decoded message for `parserX` on `dataX` carries
`msg_id = 0x10` and is not flagged extended, matching `msgX`'s standard
identifier. -/
theorem C9_decoded_message_invariants_witness :
    dmX.msg_id = 0x10 ∧ (dmX.is_extended = true ↔ ∃ i, msgX.id = MessageId.Extended i) :=
  ⟨(C9_decoded_message_invariants parserX 0x10 dataX dmX rfl).2.1,
   (C9_decoded_message_invariants parserX 0x10 dataX dmX rfl).2.2 msgX rfl⟩

/-- C10: after `Parser::clear` both `decode_msg` and `signal_defs_for_msg`
return no value for every id, and in any parser state `decode_msg` succeeds
for exactly the ids on which `signal_defs_for_msg` succeeds. -/
theorem C10_clear_empties_catalog (p : Parser) :
    (∀ msg_id data, decode_msg (Parser.clear p) msg_id data = none)
    ∧ (∀ msg_id, signal_defs_for_msg (Parser.clear p) msg_id = none)
    ∧ (∀ (q : Parser) (msg_id : Nat) (data : List Nat),
        (decode_msg q msg_id data).isSome = true
          ↔ (signal_defs_for_msg q msg_id).isSome = true) := by
  refine ⟨fun msg_id data => rfl, fun msg_id => rfl, ?_⟩
  intro q msg_id data
  unfold decode_msg signal_defs_for_msg
  cases hlook : lookupDef q.msg_defs msg_id with
  | none => simp
  | some msg_def => simp

set_option maxRecDepth 8000 in
/-- C1: spec §4.2 requires the sign-extension mask at `bit_width == 64` to
be special-cased as an empty (no-op) mask so that signed 64-bit signals
sign-extend correctly.  The code has no special case: it computes
`(1u64 << signal_def.size) - 1` directly, so at width 64 the shift amount
overflows (a panic in debug builds; with release masked-shift semantics,
modelled here by `shl64`, the mask becomes `0` and `!mask` all-ones), and
every negative raw value decodes to `-1`.  On the frame `[0x80, 0, ..., 0]`
the raw value is `2 ^ 63` and the decoder yields `-1` instead of the
correct `-2 ^ 63`. -/
theorem C1_sign_extension_width64_bug :
    extract_signal_value [0x80, 0, 0, 0, 0, 0, 0, 0] 0 64 ByteOrder.BigEndian
        = some (2 ^ 63)
    ∧ decode_signal sC1 [0x80, 0, 0, 0, 0, 0, 0, 0]
        = some (DecodedSignal.mk "s" (-1) "u")
    ∧ ((-1 : Rat) ≠ -(2 ^ 63)) := by
  have hex : extract_signal_value [0x80, 0, 0, 0, 0, 0, 0, 0] 0 64 ByteOrder.BigEndian
      = some (2 ^ 63) := by decide
  refine ⟨hex, ?_, by norm_num⟩
  rw [decode_signal_signed_neg sC1 [0x80, 0, 0, 0, 0, 0, 0, 0] (2 ^ 63) hex rfl (by decide)]
  have ht : toI64 (2 ^ 63 ||| unot64 (shl64 1 sC1.size - 1)) = -1 := by decide
  rw [ht]
  simp only [sC1]
  norm_num

end CanDecode
